import Mathlib

/-!
Shallow embedding of `src/modules/sparse_ref_panel.py` (class
`SparseReferencePanel`): the slicing engine `__getitem__`, the positional
`range` query, the ingestion-time chunking of the variant table, the
duplicate-position trim offset of `_std_out_to_sparse`, the `replace_file`
guard of `from_bcf` / `from_xsi`, and the archive-entry loaders
`_load_ids` / `_load_original_ids` / `_load_sample_ids`.

Numbers follow the Python semantics: `//` and `%` on possibly negative
integers are floor division and floor modulus (`Int.fdiv` / `Int.fmod`);
Python `range` and slice selection are embedded by explicit index-list
constructions below.
-/

/-- Errors surfaced by the slicing engine.  `indexOutOfRange` stands for a
Python `IndexError`, `chunkNotFound` for the `KeyError` raised by
`ZipFile.open` when a chunk entry (such as the one for chunk `-1`) does not
exist in the archive, and `typeMismatch` for a Python `TypeError`. -/
inductive QErr where
  | indexOutOfRange
  | chunkNotFound
  | typeMismatch
  deriving DecidableEq

deriving instance DecidableEq for Except

/-- A well-formed open archive.  `rows` is the full variant-by-haplotype
boolean matrix (one inner list per variant), `pos` the positions column of
the variant table, and `cs` the metadata `chunk_size`.  Per the archive
invariant established at ingestion (see `_ingest_variants` and the row-count
assertion of `_std_out_to_sparse`), chunk `c` of the archive stores rows
`c*cs .. min ((c+1)*cs, n) - 1`, the chunk-id column `chunks[:, 0]` is
`0, 1, ..., n_chunks - 1`, and `n_chunks = ceil (n / cs)`. -/
structure Panel where
  rows : List (List Bool)
  pos : List Int
  cs : Nat

/-- Metadata `n_variants` of a well-formed archive. -/
def Panel.nVariants (p : Panel) : Nat := p.rows.length

/-- Metadata `n_chunks` of a well-formed archive: `ceil (n_variants / chunk_size)`. -/
def Panel.nChunks (p : Panel) : Nat := (p.rows.length + p.cs - 1) / p.cs

/-- Embedding of `_load_haplotypes(chunk)`: decode the sparse chunk matrix
stored as archive entry `haplotypes/<chunk>.npz`.  Entries exist exactly for
chunk ids `0 .. n_chunks - 1`; any other id raises `KeyError`. -/
def Panel.loadChunk (p : Panel) (c : Int) : Except QErr (List (List Bool)) :=
  if 0 ≤ c ∧ c < (p.nChunks : Int) then
    .ok ((p.rows.drop (c.toNat * p.cs)).take p.cs)
  else
    .error .chunkNotFound

/-- Python integer clamp used by `slice.indices`: resolve a possibly
negative index `v` against length `L` and clamp it into `[lower, upper]`. -/
def pyClamp (L : Nat) (v lower upper : Int) : Int :=
  max lower (min (if v < 0 then v + L else v) upper)

/-- Index sequence selected by a Python slice `start:stop:step` over a
sequence of length `L` (the semantics of `slice.indices` plus the stride
walk).  A zero step, which raises `ValueError` in Python and is never
produced by the slicing engine, yields the empty selection. -/
def pySliceIdx (L : Nat) (start stop : Option Int) (step : Int) : List Int :=
  if 0 < step then
    let i0 : Int := match start with | none => 0 | some s => pyClamp L s 0 L
    let i1 : Int := match stop with | none => (L : Int) | some s => pyClamp L s 0 L
    (List.range ((i1 - i0 + step - 1) / step).toNat).map (fun k : Nat => i0 + (k : Int) * step)
  else if step < 0 then
    let i0 : Int := match start with | none => (L : Int) - 1 | some s => pyClamp L s (-1) ((L : Int) - 1)
    let i1 : Int := match stop with | none => -1 | some s => pyClamp L s (-1) ((L : Int) - 1)
    (List.range ((i0 - i1 + (-step) - 1) / (-step)).toNat).map (fun k : Nat => i0 + (k : Int) * step)
  else
    []

/-- Python slicing `l[start:stop:step]` on a list (`step = none` means an
omitted step, i.e. `1`).  All generated indices are in range, so the
`filterMap` keeps every selected element. -/
def pySlice (l : List α) (start stop step : Option Int) : List α :=
  (pySliceIdx l.length start stop (step.getD 1)).filterMap (fun i => l.get? i.toNat)

/-- Python `range(start, stop, step)` over integers (`step ≠ 0`). -/
def pyRange (start stop step : Int) : List Int :=
  if 0 < step then
    (List.range ((stop - start + step - 1) / step).toNat).map (fun k : Nat => start + (k : Int) * step)
  else if step < 0 then
    (List.range ((start - stop + (-step) - 1) / (-step)).toNat).map (fun k : Nat => start + (k : Int) * step)
  else
    []

/-- Vertical stacking (`sparse.vstack`) of a sequence of fallible per-chunk
results, propagating the first error (Python evaluates the generator left to
right). -/
def vstackE : List (Except QErr (List (List Bool))) → Except QErr (List (List Bool))
  | [] => .ok []
  | .error e :: _ => .error e
  | .ok m :: xs => (vstackE xs).map (fun ms => m ++ ms)

/-- Row selector of `__getitem__` (`key[0]`): a single integer, a slice, or
a list / 1-D array of integers. -/
inductive RowKey where
  | int (r : Int)
  | slice (start stop step : Option Int)
  | list (rs : List Int)

/-- Embedding of the single-row branch of `__getitem__` (source lines
100-108): only the upper bound is checked (`key[0] > n_variants - 1`);
then chunk `r // chunk_size` is loaded and row `r % chunk_size` of it is
returned restricted to the column selector `f`. -/
def getSingle (p : Panel) (f : List Bool → List Bool) (r : Int) :
    Except QErr (List (List Bool)) :=
  if (p.nVariants : Int) - 1 < r then
    .error .indexOutOfRange
  else
    match p.loadChunk (r.fdiv (p.cs : Int)) with
    | .error e => .error e
    | .ok m =>
      match m.get? (r.fmod (p.cs : Int)).toNat with
      | some row => .ok [f row]
      | none => .error .indexOutOfRange

/-- Embedding of the slice branch of `__getitem__` (source lines 110-154).
`chunk_step` is `-1` exactly when a step was given and is negative; the
full-extent branch fires when `start` is falsy (absent or `0`) and `stop`
is absent; otherwise the chunk range, the intra-chunk slices and the final
stacking mirror the source line by line.  An absent `start` on the bounded
path raises `TypeError` in Python when `key[0].start % chunk_size` is
evaluated. -/
def getSlice (p : Panel) (f : List Bool → List Bool)
    (start stop step : Option Int) : Except QErr (List (List Bool)) :=
  let chunkStep : Int := if step.getD 1 < 0 then -1 else 1
  if start.getD 0 = 0 ∧ stop = none then
    vstackE ((List.range p.nChunks).map (fun c : Nat =>
      (p.loadChunk (c : Int)).map (fun m => (pySlice m none none step).map f)))
  else
    let rowStop : Int := stop.elim (p.nVariants : Int) (fun s' => min s' (p.nVariants : Int))
    let chunksL : List Int :=
      pyRange ((start.getD 0).fdiv (p.cs : Int))
        ((max (rowStop - 1) 0).fdiv (p.cs : Int) + 1) chunkStep
    if chunksL.length = 0 then
      .error .indexOutOfRange
    else
      let crs : Int :=
        if rowStop.fmod (p.cs : Int) ≠ 0 then rowStop.fmod (p.cs : Int)
        else if 0 < rowStop then (p.cs : Int) else rowStop
      if chunksL.length = 1 then
        match p.loadChunk (chunksL.headD 0), start with
        | .error e, _ => .error e
        | .ok _, none => .error .typeMismatch
        | .ok m, some s =>
          .ok ((pySlice m (some (s.fmod (p.cs : Int))) (some crs) step).map f)
      else
        match start with
        | none => .error .typeMismatch
        | some s =>
          vstackE ((chunksL.zip
            ((some (s.fmod (p.cs : Int)), (none : Option Int)) ::
              (List.replicate (chunksL.length - 2)
                  ((none : Option Int), (none : Option Int)) ++
                [((none : Option Int), some crs)]))).map
            (fun t => (p.loadChunk t.1).map
              (fun m => (pySlice m t.2.1 t.2.2 step).map f)))

/-- Insertion into a sorted list of integers, auxiliary for `npUnique`. -/
def insertSorted (x : Int) : List Int → List Int
  | [] => [x]
  | y :: ys => if x ≤ y then x :: y :: ys else y :: insertSorted x ys

/-- Ascending sort of a list of integers, auxiliary for `npUnique`. -/
def sortInts (l : List Int) : List Int := l.foldr insertSorted []

/-- Deduplication of an already sorted list, auxiliary for `npUnique`. -/
def dedupSorted : List Int → List Int
  | [] => []
  | [x] => [x]
  | x :: y :: r => if x = y then dedupSorted (y :: r) else x :: dedupSorted (y :: r)

/-- Values array of `np.unique`: the distinct values in ascending order. -/
def npUnique (l : List Int) : List Int := dedupSorted (sortInts l)

/-- Section list of `np.split(l, cuts)` starting from lower bound `lo`
(numpy computes sections `l[d_i : d_{i+1}]` for the division points
`lo :: cuts ++ [len l]`; Python slicing clamps out-of-order bounds to the
empty section). -/
def npSections (l : List α) (lo : Nat) : List Nat → List (List α)
  | [] => [l.drop lo]
  | c :: cuts => (l.take c).drop lo :: npSections l c cuts

/-- Embedding of `np.split(l, cuts)`. -/
def npSplit (l : List α) (cuts : List Nat) : List (List α) :=
  npSections l 0 cuts

/-- Fancy row indexing `m[idxs, :]` of a sparse matrix: one output row per
listed index, negative indices wrap, an out-of-range index raises
`IndexError`. -/
def rowFancy (m : List (List Bool)) : List Int → Except QErr (List (List Bool))
  | [] => .ok []
  | i :: rest =>
    let j : Int := if i < 0 then i + m.length else i
    if 0 ≤ j ∧ j.toNat < m.length then
      (rowFancy m rest).map (fun ms => m.getD j.toNat [] :: ms)
    else
      .error .indexOutOfRange

/-- Embedding of the integer-list branch of `__getitem__` (source lines
156-177): group `rows // chunk_size` with `np.unique(..., return_index=True)`
(sorted unique chunk ids plus first-occurrence positions), check each chunk
id against the id column `chunks[:, 0] = 0 .. n_chunks - 1`, split
`rows % chunk_size` at the first-occurrence positions after the first, row
select per chunk, stack, and apply the column selector once at the end.  An
empty Python list raises `IndexError` at the `key[0][0]` type probe. -/
def getList (p : Panel) (f : List Bool → List Bool) (rs : List Int) :
    Except QErr (List (List Bool)) :=
  if rs.isEmpty then .error .indexOutOfRange
  else
    let q := rs.map (fun r => r.fdiv (p.cs : Int))
    let chunksU := npUnique q
    if chunksU.any (fun c => ¬ (0 ≤ c ∧ c < (p.nChunks : Int))) then
      .error .indexOutOfRange
    else
      let splits := chunksU.map (fun v => q.findIdx (fun x => x == v))
      let sections := npSplit (rs.map (fun r => r.fmod (p.cs : Int))) (splits.drop 1)
      match vstackE ((chunksU.zip sections).map (fun t =>
        match p.loadChunk t.1 with
        | .error e => .error e
        | .ok m => rowFancy m t.2)) with
      | .error e => .error e
      | .ok ms => .ok (ms.map f)

/-- Embedding of `__getitem__` (dispatch on the shape of `key[0]`, with the
column selector `key[1]` modelled as a per-row function `f`). -/
def getItem (p : Panel) (f : List Bool → List Bool) : RowKey → Except QErr (List (List Bool))
  | .int r => getSingle p f r
  | .slice a b c => getSlice p f a b c
  | .list rs => getList p f rs

/-- Embedding of `np.searchsorted(l, v)` (side `left`) on the positions
column: the first index whose position is `≥ v`, or the length when none
is. -/
def searchsorted (l : List Int) (v : Int) : Nat :=
  l.findIdx (fun x => v ≤ x)

/-- Embedding of `SparseReferencePanel.range` (source lines 661-667):
translate a base-pair range to an index slice by binary search on the
positions and defer to the slice path of `__getitem__`. -/
def rangeQ (p : Panel) (f : List Bool → List Bool)
    (minBp maxBp : Int) (inclusive : Bool) : Except QErr (List (List Bool)) :=
  let mx := maxBp + (if inclusive then 1 else 0)
  getItem p f
    (.slice (some (searchsorted p.pos minBp)) (some (searchsorted p.pos mx)) none)

/-- Literal archive of spec scenario 1: chromosome with 3 sites at
positions 100, 200, 300, genotypes `[[1,0,0,0],[1,1,0,1],[0,0,1,1]]`,
`chunk_size = 2` (so chunk 0 holds rows 0-1 and chunk 1 holds row 2). -/
def scenario1 : Panel :=
  { rows := [[true, false, false, false], [true, true, false, true],
             [false, false, true, true]]
    pos := [100, 200, 300]
    cs := 2 }

/-! ### Characterization of the Python slice and range embeddings -/

theorem filterMap_get_consec (l : List α) :
    ∀ (m a : Nat), a + m ≤ l.length →
      (List.range m).filterMap (fun k => l.get? (a + k)) = (l.drop a).take m := by
  intro m
  induction m with
  | zero => intro a _; simp
  | succ m ih =>
    intro a h
    have ha : a < l.length := by omega
    rw [List.range_succ_eq_map, List.filterMap_cons, List.filterMap_map]
    have h0 : l.get? (a + 0) = some (l.get ⟨a, ha⟩) := by
      simp [List.get?_eq_getElem?, List.getElem?_eq_getElem ha]
    rw [h0]
    have hcomp : ((fun k => l.get? (a + k)) ∘ Nat.succ) = fun k => l.get? ((a + 1) + k) := by
      funext k
      simp [Function.comp]
      congr 1
      omega
    rw [hcomp, ih (a + 1) (by omega)]
    rw [List.drop_eq_getElem_cons ha, List.take_succ_cons]
    simp

theorem filterMap_get_int (l : List α) (i0 : Int) (a m : Nat) (hi : i0 = (a : Int))
    (h : a + m ≤ l.length) :
    ((List.range m).map (fun k : Nat => i0 + (k : Int) * 1)).filterMap
      (fun i : Int => l.get? i.toNat) = (l.drop a).take m := by
  subst hi
  rw [List.filterMap_map]
  have hcomp : ((fun i : Int => l.get? i.toNat) ∘ fun k : Nat => ((a : Int) + (k : Int) * 1))
      = fun k => l.get? (a + k) := by
    funext k
    show l.get? (((a : Int) + (k : Int) * 1).toNat) = l.get? (a + k)
    congr 1
    omega
  rw [hcomp, filterMap_get_consec l m a h]

theorem pyClamp_natCast (L v : Nat) :
    pyClamp L (v : Int) 0 (L : Int) = ((min v L : Nat) : Int) := by
  unfold pyClamp
  rw [if_neg (by omega)]
  omega

/-- Python slicing with step `1` and explicit in-range stop equals
`take`-then-`drop`. -/
theorem pySlice_some_some (l : List α) (st : Option Int) (hst : st.getD 1 = 1)
    (a b : Nat) (hb : b ≤ l.length) :
    pySlice l (some (a : Int)) (some (b : Int)) st = (l.take b).drop a := by
  unfold pySlice pySliceIdx
  rw [hst, if_pos (by norm_num : (0 : Int) < 1)]
  dsimp only
  have hcb : pyClamp l.length (b : Int) 0 (l.length : Int) = ((b : Nat) : Int) := by
    rw [pyClamp_natCast]
    omega
  rw [pyClamp_natCast, hcb]
  have hcount : ((((b : Nat) : Int) - ((min a l.length : Nat) : Int) + 1 - 1) / 1).toNat
      = b - min a l.length := by omega
  rw [hcount]
  rw [filterMap_get_int l _ (min a l.length) (b - min a l.length) rfl (by omega)]
  rw [List.drop_take]
  rcases le_or_lt a l.length with hle | hgt
  · rw [min_eq_left hle]
  · rw [min_eq_right (le_of_lt hgt)]
    have h1 : l.drop l.length = [] := by simp
    have h2 : l.drop a = [] := List.drop_eq_nil_of_le (le_of_lt hgt)
    rw [h1, h2]
    simp

/-- Python slicing `l[a:]` with step `1`. -/
theorem pySlice_some_none (l : List α) (st : Option Int) (hst : st.getD 1 = 1) (a : Nat) :
    pySlice l (some (a : Int)) none st = l.drop a := by
  unfold pySlice pySliceIdx
  rw [hst, if_pos (by norm_num : (0 : Int) < 1)]
  dsimp only
  rw [pyClamp_natCast]
  have hcount : (((l.length : Int) - ((min a l.length : Nat) : Int) + 1 - 1) / 1).toNat
      = l.length - min a l.length := by omega
  rw [hcount]
  rw [filterMap_get_int l _ (min a l.length) (l.length - min a l.length) rfl (by omega)]
  rcases le_or_lt a l.length with hle | hgt
  · rw [min_eq_left hle]
    exact List.take_of_length_le (by simp)
  · rw [min_eq_right (le_of_lt hgt)]
    have h2 : l.drop a = [] := List.drop_eq_nil_of_le (le_of_lt hgt)
    simp [h2]

/-- Python slicing `l[:b]` with step `1`. -/
theorem pySlice_none_some (l : List α) (st : Option Int) (hst : st.getD 1 = 1)
    (b : Nat) (hb : b ≤ l.length) :
    pySlice l none (some (b : Int)) st = l.take b := by
  unfold pySlice pySliceIdx
  rw [hst, if_pos (by norm_num : (0 : Int) < 1)]
  dsimp only
  have hcb : pyClamp l.length (b : Int) 0 (l.length : Int) = ((b : Nat) : Int) := by
    rw [pyClamp_natCast]
    omega
  rw [hcb]
  have hcount : ((((b : Nat) : Int) - 0 + 1 - 1) / 1).toNat = b := by omega
  rw [hcount]
  rw [filterMap_get_int l _ 0 b (by omega) (by omega)]
  simp

/-- Python slicing `l[:]` with step `1`. -/
theorem pySlice_none_none (l : List α) (st : Option Int) (hst : st.getD 1 = 1) :
    pySlice l none none st = l := by
  unfold pySlice pySliceIdx
  rw [hst, if_pos (by norm_num : (0 : Int) < 1)]
  dsimp only
  have hcount : (((l.length : Int) - 0 + 1 - 1) / 1).toNat = l.length := by omega
  rw [hcount]
  rw [filterMap_get_int l _ 0 l.length (by omega) (by omega)]
  simp

/-- Python `range(a, b)` over natural bounds. -/
theorem pyRange_one (a b : Nat) :
    pyRange (a : Int) (b : Int) 1 = (List.range (b - a)).map (fun k => ((a + k : Nat) : Int)) := by
  unfold pyRange
  rw [if_pos (by norm_num : (0 : Int) < 1)]
  have hcount : (((b : Int) - (a : Int) + 1 - 1) / 1).toNat = b - a := by omega
  rw [hcount]
  apply List.map_congr_left
  intro k _
  omega

/-- Python `range(a, b, -1)` is empty when `a ≤ b`. -/
theorem pyRange_neg_one_empty (a b : Int) (h : a ≤ b) : pyRange a b (-1) = [] := by
  unfold pyRange
  rw [if_neg (by norm_num : ¬ (0 : Int) < -1), if_pos (by norm_num : (-1 : Int) < 0)]
  have hdiv : (a - b + - -1 - 1) / - -1 = a - b := by norm_num
  rw [hdiv]
  have hcount : (a - b).toNat = 0 := by omega
  rw [hcount]
  simp

/-! ### Vertical stacking lemmas -/

theorem vstackE_ok_append {xs ys : List (Except QErr (List (List Bool)))} {u v}
    (hx : vstackE xs = .ok u) (hy : vstackE ys = .ok v) :
    vstackE (xs ++ ys) = .ok (u ++ v) := by
  induction xs generalizing u with
  | nil =>
    simp only [vstackE] at hx
    cases hx
    simpa using hy
  | cons x xs ih =>
    cases x with
    | error e => simp [vstackE] at hx
    | ok m =>
      cases hxs : vstackE xs with
      | error e => simp [vstackE, hxs, Except.map] at hx
      | ok ms =>
        simp only [vstackE, hxs, Except.map] at hx
        cases hx
        simp [vstackE, ih hxs, Except.map]

theorem vstackE_chunks (p : Panel) (F : List (List Bool) → List (List Bool)) (cl : List Int)
    (h : ∀ c ∈ cl, 0 ≤ c ∧ c < (p.nChunks : Int)) :
    vstackE (cl.map (fun c => (p.loadChunk c).map F)) =
      .ok ((cl.map (fun c => F ((p.rows.drop (c.toNat * p.cs)).take p.cs))).flatten) := by
  induction cl with
  | nil => simp [vstackE]
  | cons c cl ih =>
    have hc := h c (by simp)
    have hcl : ∀ c ∈ cl, 0 ≤ c ∧ c < (p.nChunks : Int) := fun x hx => h x (by simp [hx])
    have hload : p.loadChunk c = .ok ((p.rows.drop (c.toNat * p.cs)).take p.cs) := by
      unfold Panel.loadChunk
      rw [if_pos hc]
    have hmap : Except.map F (p.loadChunk c)
        = .ok (F ((p.rows.drop (c.toNat * p.cs)).take p.cs)) := by
      rw [hload]
      rfl
    simp only [List.map_cons, hmap, vstackE, ih hcl, List.flatten_cons]
    rfl

theorem flatten_chunks (l : List α) (cs : Nat) :
    ∀ (k a : Nat), ((List.range k).map (fun i => (l.drop ((a + i) * cs)).take cs)).flatten
      = (l.drop (a * cs)).take (k * cs) := by
  intro k
  induction k with
  | zero => intro a; simp
  | succ k ih =>
    intro a
    rw [List.range_succ_eq_map, List.map_cons, List.map_map, List.flatten_cons]
    have hcomp : ((fun i => (l.drop ((a + i) * cs)).take cs) ∘ Nat.succ)
        = fun i => (l.drop (((a + 1) + i) * cs)).take cs := by
      funext i
      show (l.drop ((a + Nat.succ i) * cs)).take cs = (l.drop (((a + 1) + i) * cs)).take cs
      have harg : a + Nat.succ i = (a + 1) + i := by omega
      rw [harg]
    rw [hcomp, ih (a + 1)]
    have hsplit : (k + 1) * cs = cs + k * cs := by ring
    rw [hsplit, List.take_add, List.drop_drop]
    have : (a + 1) * cs = a * cs + cs := by ring
    rw [this]
    simp

/-! ### Arithmetic bridge lemmas between Python and Lean integer operations -/

theorem fdiv_natCast (m n : Nat) : ((m : Int)).fdiv (n : Int) = ((m / n : Nat) : Int) :=
  (Int.ofNat_fdiv m n).symm

theorem fmod_natCast (m n : Nat) : ((m : Int)).fmod (n : Int) = ((m % n : Nat) : Int) := by
  rw [Int.fmod_eq_emod _ (Int.natCast_nonneg n)]
  exact (Int.natCast_mod m n).symm

theorem fdiv_neg_of_neg {r c : Int} (hr : r < 0) (hc : 0 < c) : r.fdiv c < 0 := by
  rw [Int.fdiv_eq_ediv _ hc.le]
  exact Int.ediv_neg' hr hc

theorem nChunks_eq (p : Panel) (hcs : 0 < p.cs) (hn : 0 < p.rows.length) :
    p.nChunks = (p.rows.length - 1) / p.cs + 1 := by
  unfold Panel.nChunks
  have h : p.rows.length + p.cs - 1 = (p.rows.length - 1) + p.cs := by omega
  rw [h, Nat.add_div_right _ hcs]

theorem div_le_pred_div_succ {a b cs : Nat} (hcs : 0 < cs) (hab : a ≤ b) :
    a / cs ≤ (b - 1) / cs + 1 := by
  have h1 : a / cs ≤ b / cs := Nat.div_le_div_right hab
  have h2 : b / cs ≤ ((b - 1) + cs) / cs := Nat.div_le_div_right (by omega)
  rw [Nat.add_div_right _ hcs] at h2
  omega

example : scenario1.nChunks = 2 := by decide

example : getItem scenario1 (fun r => r) (.int 1) =
    .ok [[true, true, false, true]] := by decide

example : getItem scenario1 (fun r => r) (.int 3) = .error .indexOutOfRange := by
  decide

example : getItem scenario1 (fun r => r) (.slice none none none) =
    .ok scenario1.rows := by decide

example : getItem scenario1 (fun r => r) (.slice (some 1) (some 3) none) =
    .ok [[true, true, false, true], [false, false, true, true]] := by decide

example : getItem scenario1 (fun r => r) (.slice (some 0) (some 3) (some (-1))) =
    .error .indexOutOfRange := by decide

example : getItem scenario1 (fun r => r) (.list [0, 2]) =
    .ok [[true, false, false, false], [false, false, true, true]] := by decide

example : getItem scenario1 (fun r => r) (.list [2, 0]) =
    .ok [[false, false, true, true], [false, false, true, true]] := by decide

example : rangeQ scenario1 (fun r => r) 150 250 true =
    .ok [[true, true, false, true]] := by decide

example : rangeQ scenario1 (fun r => r) 100 300 false =
    .ok [[true, false, false, false], [true, true, false, true]] := by decide

example : rangeQ scenario1 (fun r => r) 1 1 false = .ok [] := by decide

example : rangeQ scenario1 (fun r => r) 201 200 true = .error .indexOutOfRange := by
  decide

/-! ### C3: negative-step slice queries -/

/-- C3 counterexample: on the scenario-1 archive, `M[0:3:-1, :]` does not
equal the vertical reversal of `M[0:3, :]`; it raises `IndexError`
(`"No variants to return"`) because the chunk range
`range(0 // 2, 2 // 2 + 1, -1)` is empty. -/
theorem c3_counterexample :
    getItem scenario1 (fun r => r) (.slice (some 0) (some 3) (some (-1))) ≠
      Except.map List.reverse
        (getItem scenario1 (fun r => r) (.slice (some 0) (some 3) none)) := by
  decide

/-- C3 (amended): for every archive with positive chunk size and all indices
`a ≤ b ≤ n_variants`, the negative-step slice query `M[a:b:-1, :]` raises
`IndexOutOfRange` (the chunk walk `range(a // cs, (min(b,n)-1) // cs + 1, -1)`
is empty whenever `a ≤ b`), rather than returning the vertical reversal of
`M[a:b, :]`. -/
theorem c3_negative_step_raises (p : Panel) (hcs : 0 < p.cs)
    (f : List Bool → List Bool) (a b : Nat) (hab : a ≤ b) (hb : b ≤ p.nVariants) :
    getItem p f (.slice (some (a : Int)) (some (b : Int)) (some (-1))) =
      .error .indexOutOfRange := by
  show getSlice p f (some (a : Int)) (some (b : Int)) (some (-1)) = .error .indexOutOfRange
  unfold getSlice
  dsimp only [Option.getD_some]
  simp only [Option.elim]
  rw [if_pos (by norm_num : (-1 : Int) < 0)]
  rw [if_neg (by simp : ¬ ((a : Int) = 0 ∧ (some (b : Int) : Option Int) = none))]
  have hmin : min (b : Int) (p.nVariants : Int) = ((b : Nat) : Int) := by
    have : (b : Int) ≤ (p.nVariants : Int) := by exact_mod_cast hb
    omega
  rw [hmin]
  have hmax : max (((b : Nat) : Int) - 1) 0 = ((b - 1 : Nat) : Int) := by omega
  rw [hmax, fdiv_natCast, fdiv_natCast]
  have hle : ((a / p.cs : Nat) : Int) ≤ ((b - 1) / p.cs : Nat) + 1 := by
    have := div_le_pred_div_succ (a := a) (b := b) hcs hab
    omega
  rw [pyRange_neg_one_empty _ _ hle]
  rw [if_pos (by simp : ([] : List Int).length = 0)]

/-- C3 witness: the amended statement applied to the scenario-1 archive with
`a = 0`, `b = 3`. -/
theorem c3_negative_step_raises_witness :
    getItem scenario1 (fun r => r)
        (.slice (some ((0 : Nat) : Int)) (some ((3 : Nat) : Int)) (some (-1))) =
      .error .indexOutOfRange :=
  c3_negative_step_raises scenario1 (by decide) (fun r => r) 0 3 (by decide) (by decide)

/-! ### C2: single-row queries -/

/-- C2 counterexample: on the scenario-1 archive the single-row query with
`r = -1` does not raise `IndexOutOfRange`: the code never checks the lower
bound, so it attempts to load the nonexistent chunk `-1 // 2 = -1` and fails
with the archive `KeyError` instead. -/
theorem c2_counterexample :
    getItem scenario1 (fun r => r) (.int (-1)) = .error .chunkNotFound ∧
      QErr.chunkNotFound ≠ QErr.indexOutOfRange := by
  decide

/-- C2 (amended): for every archive with positive chunk size and every
single-integer row selector `r`: if `0 ≤ r < n_variants` the query succeeds
and returns row `r mod chunk_size` of chunk `r / chunk_size` (that is,
logical row `r`) restricted to the column selector; if `r ≥ n_variants` it
raises `IndexOutOfRange`; but if `r < 0` no bounds check fires and the query
fails with the missing-chunk `KeyError` while loading chunk
`r // chunk_size < 0`. -/
theorem c2_single_row (p : Panel) (hcs : 0 < p.cs) (f : List Bool → List Bool) (r : Int) :
    getItem p f (.int r) =
      if 0 ≤ r ∧ r < (p.nVariants : Int) then
        .ok (((p.rows.drop r.toNat).take 1).map f)
      else if r < 0 then .error .chunkNotFound
      else .error .indexOutOfRange := by
  show getSingle p f r = _
  unfold getSingle
  by_cases hhi : (p.nVariants : Int) - 1 < r
  · have hn0 : (0 : Int) ≤ (p.nVariants : Int) := Int.natCast_nonneg _
    rw [if_pos hhi, if_neg (by omega), if_neg (by omega)]
  · rw [if_neg hhi]
    by_cases hneg : r < 0
    · have hload : p.loadChunk (r.fdiv (p.cs : Int)) = .error .chunkNotFound := by
        unfold Panel.loadChunk
        rw [if_neg]
        intro hcon
        have hlt := fdiv_neg_of_neg hneg (by exact_mod_cast hcs : (0 : Int) < (p.cs : Int))
        omega
      have hnotin : ¬ (0 ≤ r ∧ r < (p.nVariants : Int)) := by omega
      rw [hload, if_neg hnotin, if_pos hneg]
    · push_neg at hhi hneg
      obtain ⟨a, rfl⟩ : ∃ a : Nat, r = a := ⟨r.toNat, (Int.toNat_of_nonneg hneg).symm⟩
      have han : a < p.rows.length := by
        have h1 : (a : Int) ≤ (p.nVariants : Int) - 1 := hhi
        unfold Panel.nVariants at h1
        omega
      have hnc : a / p.cs < p.nChunks := by
        rw [nChunks_eq p hcs (by omega)]
        have h2 := Nat.div_le_div_right (c := p.cs) (show a ≤ p.rows.length - 1 by omega)
        omega
      have hload : p.loadChunk ((a / p.cs : Nat) : Int)
          = .ok ((p.rows.drop ((a / p.cs) * p.cs)).take p.cs) := by
        unfold Panel.loadChunk
        rw [if_pos ⟨Int.natCast_nonneg _, by exact_mod_cast hnc⟩]
        rw [Int.toNat_natCast]
      rw [fdiv_natCast, hload, fmod_natCast]
      dsimp only
      have hX : (a / p.cs) * p.cs + a % p.cs = a := by
        rw [Nat.mul_comm]
        exact Nat.div_add_mod a p.cs
      have hget : ((p.rows.drop ((a / p.cs) * p.cs)).take p.cs).get?
          (((a % p.cs : Nat) : Int)).toNat = some (p.rows.get ⟨a, han⟩) := by
        have ht : (((a % p.cs : Nat) : Int)).toNat = a % p.cs := by omega
        rw [ht, List.get?_eq_getElem?, List.getElem?_take,
          if_pos (Nat.mod_lt a hcs), List.getElem?_drop, hX,
          List.getElem?_eq_getElem han]
        rfl
      rw [hget]
      rw [if_pos ⟨hneg, by exact_mod_cast han⟩]
      have hdt : ((a : Int)).toNat = a := by omega
      rw [hdt, List.drop_eq_getElem_cons han, List.take_succ_cons, List.take_zero]
      rfl

/-- C2 witness: the amended statement applied to the scenario-1 archive at
`r = 1`, with the in-range branch selected. -/
theorem c2_single_row_witness :
    getItem scenario1 (fun r => r) (.int 1) =
      if (0 : Int) ≤ 1 ∧ (1 : Int) < (scenario1.nVariants : Int) then
        .ok (((scenario1.rows.drop (1 : Int).toNat).take 1).map (fun r => r))
      else if (1 : Int) < 0 then .error .chunkNotFound
      else .error .indexOutOfRange :=
  c2_single_row scenario1 (by decide) (fun r => r) 1

/-! ### C5: positional range queries over an empty span -/

theorem pred_div_of_mod_ne {i cs : Nat} (hcs : 0 < cs) (hmod : i % cs ≠ 0) :
    (i - 1) / cs = i / cs := by
  have h1 := Nat.div_add_mod i cs
  have h2 := Nat.mod_lt i hcs
  refine Nat.div_eq_of_lt_le ?_ ?_
  · rw [Nat.mul_comm]
    omega
  · rw [Nat.add_mul, Nat.one_mul, Nat.mul_comm]
    omega

theorem pred_div_of_mod_eq {i cs : Nat} (hcs : 0 < cs) (hi : 0 < i) (hmod : i % cs = 0) :
    (i - 1) / cs + 1 = i / cs := by
  have h1 := Nat.div_add_mod i cs
  have h2 := Nat.mod_lt i hcs
  have hq : 0 < i / cs := by
    rcases Nat.eq_zero_or_pos (i / cs) with h | h
    · rw [h, Nat.mul_zero] at h1
      omega
    · exact h
  have hpred : (i - 1) / cs = i / cs - 1 := by
    refine Nat.div_eq_of_lt_le ?_ ?_
    · rw [Nat.sub_mul, Nat.one_mul, Nat.mul_comm]
      omega
    · rw [Nat.sub_add_cancel hq, Nat.mul_comm]
      omega
  omega

theorem pyRange_single (A : Nat) : pyRange (A : Int) ((A : Int) + 1) 1 = [(A : Int)] := by
  have h : ((A : Int) + 1) = ((A + 1 : Nat) : Int) := by push_cast; ring
  rw [h, pyRange_one]
  have h1 : A + 1 - A = 1 := by omega
  rw [h1]
  simp [List.range_succ]

theorem pyRange_empty_self (A : Nat) : pyRange (A : Int) (A : Int) 1 = [] := by
  rw [pyRange_one]
  simp

/-- C5 counterexample: on the scenario-1 archive, the positional query
`range(201, 200, inclusive=True)` translates to the empty index span
`slice(2, 2)` (both binary searches return `2`), yet it raises
`IndexOutOfRange` instead of returning a 0-row matrix, because `2` is a
positive multiple of the chunk size. -/
theorem c5_counterexample :
    searchsorted scenario1.pos 201 = 2 ∧
      searchsorted scenario1.pos (200 + 1) = 2 ∧
      rangeQ scenario1 (fun r => r) 201 200 true = .error .indexOutOfRange := by
  decide

/-- C5 (amended): for every non-empty archive with positive chunk size and
positions column as long as the matrix, a positional range query whose
binary-search translation yields an empty span `start_idx = stop_idx`
returns a 0-row matrix when `start_idx` is `0` or is not a multiple of
`chunk_size`; but when `start_idx` is a positive multiple of `chunk_size`
the computed chunk range `range(start_idx // cs, (start_idx-1) // cs + 1)`
is empty and the query raises `IndexOutOfRange`. -/
theorem c5_empty_span_range (p : Panel) (hcs : 0 < p.cs) (hn : 0 < p.rows.length)
    (hlen : p.pos.length = p.rows.length) (f : List Bool → List Bool)
    (minBp maxBp : Int) (inclusive : Bool)
    (hij : searchsorted p.pos (maxBp + (if inclusive then 1 else 0))
      = searchsorted p.pos minBp) :
    rangeQ p f minBp maxBp inclusive =
      if searchsorted p.pos minBp = 0 ∨ ¬ (p.cs ∣ searchsorted p.pos minBp) then
        .ok []
      else .error .indexOutOfRange := by
  obtain ⟨I, hI⟩ : ∃ I, searchsorted p.pos minBp = I := ⟨_, rfl⟩
  have hIle : I ≤ p.rows.length := by
    rw [← hI, ← hlen]
    exact List.findIdx_le_length _
  unfold rangeQ
  simp only [hij, hI]
  show getSlice p f (some (I : Int)) (some (I : Int)) none = _
  simp only [getSlice, Option.getD_some, Option.getD_none, Option.elim]
  rw [if_neg (by norm_num : ¬ (1 : Int) < 0)]
  rw [if_neg (by simp : ¬ ((I : Int) = 0 ∧ (some (I : Int) : Option Int) = none))]
  have hmin : min ((I : Nat) : Int) ((p.nVariants : Nat) : Int) = ((I : Nat) : Int) := by
    unfold Panel.nVariants
    omega
  rw [hmin]
  have hmax : max (((I : Nat) : Int) - 1) 0 = ((I - 1 : Nat) : Int) := by omega
  rw [hmax]
  simp only [fdiv_natCast, fmod_natCast]
  by_cases hI0 : I = 0
  · subst hI0
    rw [show ((0 - 1 : Nat)) / p.cs = 0 / p.cs by norm_num]
    rw [pyRange_single (0 / p.cs)]
    rw [if_neg (by simp : ¬ ([((0 / p.cs : Nat) : Int)].length = 0))]
    rw [if_neg (by simp : ¬ (((0 % p.cs : Nat) : Int) ≠ 0))]
    rw [if_neg (by simp : ¬ (0 : Int) < ((0 : Nat) : Int))]
    rw [if_pos (by simp : [((0 / p.cs : Nat) : Int)].length = 1)]
    simp only [List.headD_cons]
    rw [Nat.zero_div]
    have hload : p.loadChunk ((0 : Nat) : Int)
        = .ok ((p.rows.drop (((0 : Nat) : Int).toNat * p.cs)).take p.cs) := by
      unfold Panel.loadChunk
      rw [if_pos ⟨by simp, by rw [nChunks_eq p hcs hn]; exact_mod_cast Nat.succ_pos _⟩]
    rw [hload]
    dsimp only
    simp only [fmod_natCast]
    have hslice : pySlice ((p.rows.drop (((0 : Nat) : Int).toNat * p.cs)).take p.cs)
        (some ((0 % p.cs : Nat) : Int)) (some ((0 : Nat) : Int)) none = [] := by
      rw [show ((0 : Nat) : Int) = (((0 : Nat) : Nat) : Int) from rfl]
      rw [pySlice_some_some _ none rfl (0 % p.cs) 0 (by omega)]
      simp
    rw [hslice]
    simp
  · by_cases hdvd : p.cs ∣ I
    · have hmod : I % p.cs = 0 := Nat.mod_eq_zero_of_dvd hdvd
      have hIpos : 0 < I := Nat.pos_of_ne_zero hI0
      have hE2 := pred_div_of_mod_eq hcs hIpos hmod
      have hcast : (((I - 1) / p.cs : Nat) : Int) + 1 = ((I / p.cs : Nat) : Int) := by
        exact_mod_cast hE2
      rw [hcast, pyRange_empty_self]
      rw [if_pos (by simp : ([] : List Int).length = 0)]
      rw [if_neg (by simp [hI0, hdvd])]
    · have hmod : I % p.cs ≠ 0 := fun h => hdvd (Nat.dvd_of_mod_eq_zero h)
      have hIpos : 0 < I := Nat.pos_of_ne_zero hI0
      have hE1 : (I - 1) / p.cs = I / p.cs := pred_div_of_mod_ne hcs hmod
      rw [hE1, pyRange_single (I / p.cs)]
      rw [if_neg (by simp : ¬ ([((I / p.cs : Nat) : Int)].length = 0))]
      rw [if_pos (by exact_mod_cast hmod : ¬ (((I % p.cs : Nat) : Int) = 0))]
      rw [if_pos (by simp : [((I / p.cs : Nat) : Int)].length = 1)]
      simp only [List.headD_cons]
      have hnc : I / p.cs < p.nChunks := by
        rw [nChunks_eq p hcs hn]
        have hd : (I - 1) / p.cs ≤ (p.rows.length - 1) / p.cs :=
          Nat.div_le_div_right (by omega)
        omega
      have hload : p.loadChunk ((I / p.cs : Nat) : Int)
          = .ok ((p.rows.drop ((I / p.cs) * p.cs)).take p.cs) := by
        unfold Panel.loadChunk
        rw [if_pos ⟨Int.natCast_nonneg _, by exact_mod_cast hnc⟩]
        rw [Int.toNat_natCast]
      rw [hload]
      dsimp only
      simp only [fmod_natCast]
      have hXmod : (I / p.cs) * p.cs + I % p.cs = I := by
        rw [Nat.mul_comm]
        exact Nat.div_add_mod I p.cs
      have hlb : I % p.cs ≤ ((p.rows.drop ((I / p.cs) * p.cs)).take p.cs).length := by
        rw [List.length_take, List.length_drop]
        have h2 := Nat.mod_lt I hcs
        omega
      have hslice : pySlice ((p.rows.drop ((I / p.cs) * p.cs)).take p.cs)
          (some ((I % p.cs : Nat) : Int)) (some ((I % p.cs : Nat) : Int)) none = [] := by
        rw [pySlice_some_some _ none rfl (I % p.cs) (I % p.cs) hlb]
        rw [List.drop_take]
        simp
      rw [hslice]
      rw [if_pos (Or.inr hdvd)]
      rfl

/-- C5 witness: the amended statement applied to the scenario-1 archive for
`range(1, 1, inclusive=False)`, whose binary-search translation is the empty
span `slice(0, 0)`; the query returns a 0-row matrix. -/
theorem c5_empty_span_range_witness :
    rangeQ scenario1 (fun r => r) 1 1 false =
      if searchsorted scenario1.pos 1 = 0 ∨
          ¬ (scenario1.cs ∣ searchsorted scenario1.pos 1) then
        .ok []
      else .error .indexOutOfRange :=
  c5_empty_span_range scenario1 (by decide) (by decide) (by decide) (fun r => r)
    1 1 false (by decide)

/-! ### C1: integer-list row selectors -/

/-- C1 (code bug): on the literal scenario-1 archive the integer-list query
`M[[2,0], :]` does not return the rows in caller order
`[[0,0,1,1],[1,0,0,0]]`.  `np.unique(rows // chunk_size, return_index=True)`
returns the first-occurrence positions ordered by the sorted unique chunk
ids (`chunks = [0,1]`, `splits = [1,0]`), so `np.split(rows % chunk_size,
splits[1:])` cuts at the out-of-order position list `[0]` and hands both
remapped indices to chunk 1: the query returns chunk 1's single row twice
(`[[0,0,1,1],[0,0,1,1]]`) and silently drops row 0. -/
theorem c1_list_selector_bug :
    getItem scenario1 (fun r => r) (.list [2, 0]) =
        .ok [[false, false, true, true], [false, false, true, true]] ∧
      getItem scenario1 (fun r => r) (.list [2, 0]) ≠
        .ok [[false, false, true, true], [true, false, false, false]] := by
  decide

/-! ### C4: slices reaching past the last chunk with step 1 -/

theorem zip_replicate_right (l : List α) (x : β) :
    l.zip (List.replicate l.length x) = l.map (fun a => (a, x)) := by
  induction l with
  | nil => rfl
  | cons a l ih => simp [List.replicate_succ, ih]

theorem range_map_single (A : Nat) :
    (List.range 1).map (fun k : Nat => ((A + k : Nat) : Int)) = [((A : Nat) : Int)] := by
  have h : List.range 1 = [0] := by decide
  rw [h]
  simp

theorem range_map_decomp (m A : Nat) (g : Nat → α) :
    (List.range (m + 2)).map (fun j => g (A + j))
      = g A :: ((List.range m).map (fun j => g (A + 1 + j)) ++ [g (A + (m + 1))]) := by
  rw [List.range_succ_eq_map, List.map_cons, List.map_map]
  have h0 : A + 0 = A := by omega
  rw [h0]
  congr 1
  rw [List.range_succ, List.map_append]
  congr 1
  apply List.map_congr_left
  intro j _
  show g (A + (j + 1)) = g (A + 1 + j)
  congr 1
  omega

theorem n_le_nChunks_mul (p : Panel) (hcs : 0 < p.cs) (hn : 0 < p.rows.length) :
    p.rows.length ≤ p.nChunks * p.cs := by
  rw [nChunks_eq p hcs hn]
  have h1 : p.cs * ((p.rows.length - 1) / p.cs) + (p.rows.length - 1) % p.cs
      = p.rows.length - 1 := Nat.div_add_mod _ _
  have h2 : (p.rows.length - 1) % p.cs < p.cs := Nat.mod_lt _ hcs
  rw [Nat.add_mul, Nat.one_mul, Nat.mul_comm]
  omega

/-- C4: for every archive with positive chunk size, and every slice row
selector with integer `0 ≤ start < n_variants`, step `1` (explicit or
omitted), and `stop` absent or `≥ n_variants`, the stop bound is normalized
to `min(stop, n_variants)` and the query succeeds with exactly
`n_variants - start` rows: rows `start .. n_variants - 1` in natural order,
restricted to the column selector. -/
theorem c4_tail_slice (p : Panel) (hcs : 0 < p.cs) (f : List Bool → List Bool)
    (s : Nat) (hs : s < p.nVariants) (stop step : Option Int)
    (hstop : stop = none ∨ ∃ t : Int, stop = some t ∧ (p.nVariants : Int) ≤ t)
    (hstep : step = none ∨ step = some 1) :
    getItem p f (.slice (some (s : Int)) stop step) = .ok ((p.rows.drop s).map f) ∧
      ((p.rows.drop s).map f).length = p.nVariants - s := by
  have hst1 : step.getD 1 = 1 := by
    rcases hstep with rfl | rfl <;> rfl
  simp only [Panel.nVariants] at hs hstop
  have hn : 0 < p.rows.length := by omega
  refine ⟨?_, by simp [Panel.nVariants]⟩
  show getSlice p f (some (s : Int)) stop step = _
  simp only [getSlice, Panel.nVariants, Option.getD_some]
  rw [hst1, if_neg (by norm_num : ¬ (1 : Int) < 0)]
  by_cases hfull : (s : Int) = 0 ∧ stop = none
  · obtain ⟨hs0, rfl⟩ := hfull
    have hs0' : s = 0 := by exact_mod_cast hs0
    subst hs0'
    rw [if_pos ⟨hs0, rfl⟩]
    have hbody : ∀ c : Nat, c < p.nChunks →
        (p.loadChunk (c : Int)).map (fun m => (pySlice m none none step).map f)
          = .ok (((p.rows.drop (c * p.cs)).take p.cs).map f) := by
      intro c hc
      have hload : p.loadChunk (c : Int) = .ok ((p.rows.drop (c * p.cs)).take p.cs) := by
        unfold Panel.loadChunk
        rw [if_pos ⟨Int.natCast_nonneg _, by exact_mod_cast hc⟩, Int.toNat_natCast]
      rw [hload]
      show Except.ok ((pySlice ((p.rows.drop (c * p.cs)).take p.cs) none none step).map f)
          = _
      rw [pySlice_none_none _ step hst1]
    have hstack : ∀ (cl : List Nat), (∀ c ∈ cl, c < p.nChunks) →
        vstackE (cl.map (fun c : Nat =>
            (p.loadChunk (c : Int)).map (fun m => (pySlice m none none step).map f)))
          = .ok ((cl.map (fun c => ((p.rows.drop (c * p.cs)).take p.cs).map f)).flatten) := by
      intro cl
      induction cl with
      | nil => intro _; rfl
      | cons c cl ih =>
        intro hmem
        rw [List.map_cons, hbody c (hmem c (by simp)), List.map_cons, List.flatten_cons]
        simp only [vstackE]
        rw [ih (fun x hx => hmem x (by simp [hx]))]
        rfl
    rw [hstack (List.range p.nChunks) (fun c hc => List.mem_range.mp hc)]
    rw [List.drop_zero]
    congr 1
    rw [show (fun c : Nat => ((p.rows.drop (c * p.cs)).take p.cs).map f)
        = (List.map f) ∘ (fun c : Nat => (p.rows.drop (c * p.cs)).take p.cs) from rfl]
    rw [← List.map_map, ← List.map_flatten]
    congr 1
    have hfun : (List.range p.nChunks).map (fun i => (p.rows.drop (i * p.cs)).take p.cs)
        = (List.range p.nChunks).map (fun i => (p.rows.drop ((0 + i) * p.cs)).take p.cs) := by
      apply List.map_congr_left
      intro i _
      rw [Nat.zero_add]
    rw [hfun, flatten_chunks p.rows p.cs p.nChunks 0, Nat.zero_mul, List.drop_zero]
    exact List.take_of_length_le (n_le_nChunks_mul p hcs hn)
  · rw [if_neg hfull]
    have hrow : stop.elim ((p.rows.length : Nat) : Int)
        (fun s' => min s' (p.rows.length : Int)) = ((p.rows.length : Nat) : Int) := by
      rcases hstop with rfl | ⟨t, rfl, ht⟩
      · rfl
      · show min t (p.rows.length : Int) = _
        omega
    rw [hrow]
    have hmax : max (((p.rows.length : Nat) : Int) - 1) 0
        = ((p.rows.length - 1 : Nat) : Int) := by omega
    rw [hmax]
    simp only [fdiv_natCast, fmod_natCast]
    obtain ⟨A, hA⟩ : ∃ A, s / p.cs = A := ⟨_, rfl⟩
    obtain ⟨B, hB⟩ : ∃ B, (p.rows.length - 1) / p.cs = B := ⟨_, rfl⟩
    obtain ⟨SM, hSM⟩ : ∃ SM, s % p.cs = SM := ⟨_, rfl⟩
    obtain ⟨NM, hNM⟩ : ∃ NM, p.rows.length % p.cs = NM := ⟨_, rfl⟩
    obtain ⟨Q, hQ⟩ : ∃ Q, p.rows.length / p.cs = Q := ⟨_, rfl⟩
    have hAeq : p.cs * A + SM = s := by
      rw [← hA, ← hSM]
      exact Nat.div_add_mod s p.cs
    have hSMlt : SM < p.cs := by
      rw [← hSM]
      exact Nat.mod_lt _ hcs
    have hBeq : p.cs * B + ((p.rows.length - 1) % p.cs) = p.rows.length - 1 := by
      rw [← hB]
      exact Nat.div_add_mod _ _
    have hB1lt : (p.rows.length - 1) % p.cs < p.cs := Nat.mod_lt _ hcs
    have hQeq : p.cs * Q + NM = p.rows.length := by
      rw [← hQ, ← hNM]
      exact Nat.div_add_mod _ _
    have hNMlt : NM < p.cs := by
      rw [← hNM]
      exact Nat.mod_lt _ hcs
    rw [hA, hB, hSM, hNM]
    have hQB0 : NM = 0 → B + 1 = Q := by
      intro h0
      rw [← hB, ← hQ]
      exact pred_div_of_mod_eq hcs hn (by rw [← hNM] at h0; exact h0)
    have hQB1 : NM ≠ 0 → B = Q := by
      intro hne
      rw [← hB, ← hQ]
      exact pred_div_of_mod_ne hcs (by rw [← hNM] at hne; exact hne)
    have hCRS : (if ((NM : Nat) : Int) ≠ 0 then ((NM : Nat) : Int)
          else if 0 < ((p.rows.length : Nat) : Int) then ((p.cs : Nat) : Int)
          else ((p.rows.length : Nat) : Int))
        = ((p.rows.length - p.cs * B : Nat) : Int) := by
      by_cases hm : NM = 0
      · rw [if_neg (by simp [hm]), if_pos (by exact_mod_cast hn)]
        have h5 := hQB0 hm
        have h6 : p.cs * (B + 1) = p.cs * B + p.cs := by ring
        have h7 : p.cs * (B + 1) = p.cs * Q := by rw [h5]
        omega
      · rw [if_pos (by exact_mod_cast hm)]
        have h5 := hQB1 hm
        have h7 : p.cs * B = p.cs * Q := by rw [h5]
        omega
    rw [hCRS]
    have hc2 : ((B : Nat) : Int) + 1 = ((B + 1 : Nat) : Int) := by push_cast; ring
    rw [hc2, pyRange_one]
    have hABle : A ≤ B := by
      rw [← hA, ← hB]
      exact Nat.div_le_div_right (by omega)
    have hCRSle : p.rows.length - p.cs * B ≤ p.cs := by omega
    have hCRSpos : 0 < p.rows.length - p.cs * B := by omega
    rcases eq_or_lt_of_le hABle with hAeqB | hAltB
    · subst hAeqB
      have hk1 : A + 1 - A = 1 := by omega
      rw [hk1, range_map_single]
      rw [if_neg (by simp : ¬ ([((A : Nat) : Int)].length = 0))]
      rw [if_pos (by simp : [((A : Nat) : Int)].length = 1)]
      simp only [List.headD_cons]
      have hnc : A < p.nChunks := by
        rw [nChunks_eq p hcs hn, ← hB]
        omega
      have hload : p.loadChunk ((A : Nat) : Int)
          = .ok ((p.rows.drop (A * p.cs)).take p.cs) := by
        unfold Panel.loadChunk
        rw [if_pos ⟨Int.natCast_nonneg _, by exact_mod_cast hnc⟩, Int.toNat_natCast]
      rw [hload]
      dsimp only
      rw [fmod_natCast, hSM]
      have hb2 : p.rows.length - p.cs * A ≤ ((p.rows.drop (A * p.cs)).take p.cs).length := by
        rw [List.length_take, List.length_drop]
        have hmul : A * p.cs = p.cs * A := Nat.mul_comm _ _
        omega
      rw [pySlice_some_some _ step hst1 SM (p.rows.length - p.cs * A) hb2]
      congr 1
      rw [List.take_take]
      have hminc : min (p.rows.length - p.cs * A) p.cs = p.rows.length - p.cs * A := by
        omega
      rw [hminc, List.drop_take, List.drop_drop]
      rw [show A * p.cs + SM = s from by rw [Nat.mul_comm]; exact hAeq]
      apply congrArg
      apply List.take_of_length_le
      rw [List.length_drop]
      have hmul : A * p.cs = p.cs * A := Nat.mul_comm _ _
      omega
    · obtain ⟨M, hM⟩ : ∃ M, B = A + M + 1 := ⟨B - A - 1, by omega⟩
      subst hM
      have hk : A + M + 1 + 1 - A = M + 2 := by omega
      rw [hk, range_map_decomp M A (fun j : Nat => ((j : Nat) : Int))]
      have hL : (((A : Nat) : Int) ::
          ((List.range M).map (fun j => ((A + 1 + j : Nat) : Int))
            ++ [((A + (M + 1) : Nat) : Int)])).length = M + 2 := by
        simp
      rw [if_neg (by rw [hL]; omega)]
      rw [if_neg (by rw [hL]; omega)]
      rw [hL]
      have hM2 : M + 2 - 2 = M := by omega
      rw [hM2]
      rw [List.zip_cons_cons]
      rw [List.zip_append (by simp : ((List.range M).map
          (fun j => ((A + 1 + j : Nat) : Int))).length
            = (List.replicate M ((none : Option Int), (none : Option Int))).length)]
      rw [show List.replicate M ((none : Option Int), (none : Option Int))
          = List.replicate ((List.range M).map
              (fun j => ((A + 1 + j : Nat) : Int))).length
            ((none : Option Int), (none : Option Int)) from by simp]
      rw [zip_replicate_right]
      rw [show ([((A + (M + 1) : Nat) : Int)].zip
            [((none : Option Int), some ((p.rows.length - p.cs * (A + M + 1) : Nat) : Int))])
          = [(((A + (M + 1) : Nat) : Int),
              ((none : Option Int), some ((p.rows.length - p.cs * (A + M + 1) : Nat) : Int)))]
          from rfl]
      rw [List.map_cons, List.map_append, List.map_map]
      have hncB : A + (M + 1) < p.nChunks := by
        rw [nChunks_eq p hcs hn, hB]
        omega
      have hncA : A < p.nChunks := by
        rw [nChunks_eq p hcs hn, hB]
        omega
      have hloadA : p.loadChunk ((A : Nat) : Int)
          = .ok ((p.rows.drop (A * p.cs)).take p.cs) := by
        unfold Panel.loadChunk
        rw [if_pos ⟨Int.natCast_nonneg _, by exact_mod_cast hncA⟩, Int.toNat_natCast]
      have hloadB : p.loadChunk ((A + (M + 1) : Nat) : Int)
          = .ok ((p.rows.drop ((A + (M + 1)) * p.cs)).take p.cs) := by
        unfold Panel.loadChunk
        rw [if_pos ⟨Int.natCast_nonneg _, by exact_mod_cast hncB⟩, Int.toNat_natCast]
      dsimp only
      have hbodyA : (p.loadChunk ((A : Nat) : Int)).map
            (fun m => (pySlice m (some ((SM : Nat) : Int)) none step).map f)
          = .ok ((((p.rows.drop (A * p.cs)).take p.cs).drop SM).map f) := by
        rw [hloadA]
        show Except.ok ((pySlice ((p.rows.drop (A * p.cs)).take p.cs)
            (some ((SM : Nat) : Int)) none step).map f) = _
        rw [pySlice_some_none _ step hst1]
      rw [hbodyA]
      have hchbl : p.rows.length - p.cs * (A + M + 1)
          ≤ ((p.rows.drop ((A + (M + 1)) * p.cs)).take p.cs).length := by
        rw [List.length_take, List.length_drop]
        have hmul : (A + (M + 1)) * p.cs = p.cs * (A + M + 1) := by ring
        omega
      have hbodyB : (p.loadChunk ((A + (M + 1) : Nat) : Int)).map
            (fun m => (pySlice m none
              (some ((p.rows.length - p.cs * (A + M + 1) : Nat) : Int)) step).map f)
          = .ok ((((p.rows.drop ((A + (M + 1)) * p.cs)).take p.cs).take
              (p.rows.length - p.cs * (A + M + 1))).map f) := by
        rw [hloadB]
        show Except.ok ((pySlice ((p.rows.drop ((A + (M + 1)) * p.cs)).take p.cs)
            none (some ((p.rows.length - p.cs * (A + M + 1) : Nat) : Int)) step).map f) = _
        rw [pySlice_none_some _ step hst1 _ hchbl]
      have hmids : vstackE (((List.range M).map
            (fun j => ((A + 1 + j : Nat) : Int))).map
              ((fun t => (p.loadChunk t.1).map
                  (fun m => (pySlice m t.2.1 t.2.2 step).map f))
                ∘ (fun a => (a, ((none : Option Int), (none : Option Int))))))
          = .ok ((((List.range M).map
              (fun j => (p.rows.drop ((A + 1 + j) * p.cs)).take p.cs)).map
                (List.map f)).flatten) := by
        rw [show ((fun t : Int × (Option Int × Option Int) => (p.loadChunk t.1).map
              (fun m => (pySlice m t.2.1 t.2.2 step).map f))
            ∘ (fun a : Int => (a, ((none : Option Int), (none : Option Int)))))
            = fun c : Int => (p.loadChunk c).map
              (fun m => (pySlice m none none step).map f) from rfl]
        rw [vstackE_chunks p (fun m => (pySlice m none none step).map f)]
        · congr 1
          rw [List.map_map, List.map_map]
          congr 1
          apply List.map_congr_left
          intro j hj
          show (pySlice ((p.rows.drop ((((A + 1 + j : Nat) : Int)).toNat * p.cs)).take p.cs)
              none none step).map f = _
          rw [Int.toNat_natCast, pySlice_none_none _ step hst1]
          rfl
        · intro c hc
          obtain ⟨j, hj, rfl⟩ := List.mem_map.mp hc
          have hjM : j < M := List.mem_range.mp hj
          refine ⟨Int.natCast_nonneg _, ?_⟩
          have hincl : A + 1 + j < p.nChunks := by
            rw [nChunks_eq p hcs hn, hB]
            omega
          exact_mod_cast hincl
      have hlast : vstackE (List.map (fun t => (p.loadChunk t.1).map
            (fun m => (pySlice m t.2.1 t.2.2 step).map f))
          [(((A + (M + 1) : Nat) : Int),
            ((none : Option Int), some ((p.rows.length - p.cs * (A + M + 1) : Nat) : Int)))])
          = .ok ((((p.rows.drop ((A + (M + 1)) * p.cs)).take p.cs).take
              (p.rows.length - p.cs * (A + M + 1))).map f) := by
        rw [List.map_cons, List.map_nil]
        show vstackE [(p.loadChunk ((A + (M + 1) : Nat) : Int)).map
            (fun m => (pySlice m none
              (some ((p.rows.length - p.cs * (A + M + 1) : Nat) : Int)) step).map f)] = _
        rw [hbodyB]
        simp [vstackE, Except.map]
      simp only [vstackE]
      rw [vstackE_ok_append hmids hlast]
      show Except.ok _ = _
      congr 1
      beta_reduce
      rw [← List.map_flatten]
      rw [flatten_chunks p.rows p.cs M (A + 1)]
      rw [List.take_take]
      have hminc : min (p.rows.length - p.cs * (A + M + 1)) p.cs
          = p.rows.length - p.cs * (A + M + 1) := by
        have hmul : p.cs * (A + M + 1) = p.cs * (A + M) + p.cs := by ring
        omega
      rw [hminc]
      rw [List.drop_take, List.drop_drop]
      rw [show A * p.cs + SM = s from by rw [Nat.mul_comm]; exact hAeq]
      rw [← List.map_append, ← List.map_append]
      apply congrArg
      have hd0 : (p.rows.drop ((A + 1) * p.cs)) = (p.rows.drop s).drop (p.cs - SM) := by
        rw [List.drop_drop]
        congr 1
        have hmul : (A + 1) * p.cs = p.cs * A + p.cs := by ring
        omega
      have hd1 : (p.rows.drop ((A + (M + 1)) * p.cs))
          = ((p.rows.drop s).drop (p.cs - SM)).drop (M * p.cs) := by
        rw [List.drop_drop, List.drop_drop]
        congr 1
        have hmul : (A + (M + 1)) * p.cs = p.cs * A + M * p.cs + p.cs := by ring
        omega
      rw [hd0, hd1]
      rw [← List.take_add, ← List.take_add]
      apply List.take_of_length_le
      rw [List.length_drop]
      have hmul : p.cs * (A + M + 1) = p.cs * A + M * p.cs + p.cs := by ring
      omega

/-- C4 witness: the statement applied to the scenario-1 archive with
`start = 1`, `stop = 5 ≥ n_variants = 3`, step omitted: rows 1 and 2 are
returned in order. -/
theorem c4_tail_slice_witness :
    getItem scenario1 (fun r => r) (.slice (some ((1 : Nat) : Int)) (some 5) none) =
        .ok ((scenario1.rows.drop 1).map (fun r => r)) ∧
      ((scenario1.rows.drop 1).map (fun r => r)).length = scenario1.nVariants - 1 :=
  c4_tail_slice scenario1 (by decide) (fun r => r) 1 (by decide) (some 5) none
    (Or.inr ⟨5, rfl, by decide⟩) (Or.inl rfl)

/-! ### C6 and C7: ingestion-time chunking of the variant table -/

/-- Python `range(a, b, s)` over naturals with positive step, as used by
`np.split(self.variants, range(chunk_size, self.variants.size, chunk_size))`
in `_ingest_variants`. -/
def pyRangeNat (a b s : Nat) : List Nat :=
  (List.range ((b - a + s - 1) / s)).map (fun k => a + k * s)

/-- Embedding of the variant-table chunking of `_ingest_variants` (source
lines 381-392), restricted to the positions column: split the positions into
successive `chunk_size`-sized pieces. -/
def ingestPieces (pos : List Int) (cs : Nat) : List (List Int) :=
  npSplit pos (pyRangeNat cs pos.length cs)

/-- Embedding of the chunks table built by `_ingest_variants`:
one triple `[idx, int(chunk[0][1]), int(chunk[-1][1])]` per piece. -/
def chunksTableOf (pos : List Int) (cs : Nat) : List (Nat × Int × Int) :=
  (ingestPieces pos cs).enum.map (fun pr => (pr.1, (pr.2.headD 0, pr.2.getLastD 0)))

/-- Python row indexing `self.chunks[i]` with negative wrap-around
(`self.chunks[chunk - 1]` reads the last row when `chunk = 0`). -/
def pyTableRow (T : List (Nat × Int × Int)) (i : Int) : Nat × Int × Int :=
  if i < 0 then T.getD (T.length - (-i).toNat) (0, 0, 0) else T.getD i.toNat (0, 0, 0)

/-- Backward walk of `_std_out_to_sparse` (source lines 462-468): starting
at variant index `v` and walking down, count consecutive variants whose
position equals `b`, stopping at the first mismatch; index 0 is never
examined because `range(chunk * chunk_size - 1, 0, -1)` stops before it. -/
def walkCount (pos : List Int) (b : Int) : Nat → Nat
  | 0 => 0
  | v + 1 => if pos.getD (v + 1) 0 = b then walkCount pos b v + 1 else 0

/-- Embedding of the duplicate-position trim offset of `_std_out_to_sparse`
(source lines 461-468): when chunk `chunk`'s `first_pos` equals the previous
chunk's `last_pos`, walk backward from `chunk * chunk_size - 1` over the
global variant table counting positions equal to the boundary. -/
def computeOffset (pos : List Int) (cs : Nat) (chunk : Nat) : Nat :=
  let T := chunksTableOf pos cs
  if (pyTableRow T (chunk : Int)).2.1 = (pyTableRow T ((chunk : Int) - 1)).2.2 then
    walkCount pos (pyTableRow T (chunk : Int)).2.1 (chunk * cs - 1)
  else 0

/-- Trimming of the parsed genotype text stream by `_std_out_to_sparse`:
`matrix = parsed[offset : offset + chunk_size]`. -/
def trimParsed (parsed : List (List Bool)) (offset cs : Nat) : List (List Bool) :=
  (parsed.take (offset + cs)).drop offset

theorem npSections_arith (l : List α) (cs : Nat) :
    ∀ (k lo : Nat), npSections l lo ((List.range k).map (fun i => lo + (i + 1) * cs))
      = (List.range k).map (fun i => (l.take (lo + (i + 1) * cs)).drop (lo + i * cs))
        ++ [l.drop (lo + k * cs)] := by
  intro k
  induction k with
  | zero =>
    intro lo
    simp [npSections]
  | succ k ih =>
    intro lo
    have hcuts : (List.range (k + 1)).map (fun i => lo + (i + 1) * cs)
        = (lo + cs) :: (List.range k).map (fun i => (lo + cs) + (i + 1) * cs) := by
      rw [List.range_succ_eq_map, List.map_cons, List.map_map]
      congr 1
      · ring
      · apply List.map_congr_left
        intro i _
        show lo + (Nat.succ i + 1) * cs = (lo + cs) + (i + 1) * cs
        have harg : Nat.succ i + 1 = i + 2 := by omega
        rw [harg]
        ring
    rw [hcuts]
    show (l.take (lo + cs)).drop lo :: npSections l (lo + cs)
        ((List.range k).map (fun i => (lo + cs) + (i + 1) * cs)) = _
    rw [ih (lo + cs)]
    simp only [List.range_succ_eq_map, List.map_cons, List.map_map, List.cons_append]
    congr 1
    · have e1 : lo + 0 * cs = lo := by ring
      have e2 : lo + (0 + 1) * cs = lo + cs := by ring
      rw [e1, e2]
    · congr 1
      · apply List.map_congr_left
        intro i _
        show (l.take ((lo + cs) + (i + 1) * cs)).drop ((lo + cs) + i * cs)
            = (l.take (lo + (Nat.succ i + 1) * cs)).drop (lo + Nat.succ i * cs)
        have h3 : lo + (Nat.succ i + 1) * cs = (lo + cs) + (i + 1) * cs := by
          have hs : Nat.succ i + 1 = i + 2 := by omega
          rw [hs]
          ring
        have h4 : lo + Nat.succ i * cs = (lo + cs) + i * cs := by
          have hs : Nat.succ i = i + 1 := by omega
          rw [hs]
          ring
        rw [h3, h4]
      · have h5 : lo + (k + 1) * cs = (lo + cs) + k * cs := by ring
        rw [h5]

theorem pyRangeNat_count (n cs : Nat) (hcs : 0 < cs) (hn : 0 < n) :
    (n - cs + cs - 1) / cs = (n - 1) / cs := by
  rcases le_or_lt cs n with h | h
  · have he : n - cs + cs - 1 = n - 1 := by omega
    rw [he]
  · have he : n - cs + cs - 1 = cs - 1 := by omega
    rw [he, Nat.div_eq_of_lt (by omega), Nat.div_eq_of_lt (by omega)]

theorem ingestPieces_eq (pos : List Int) (cs : Nat) (hcs : 0 < cs) (hn : 0 < pos.length) :
    ingestPieces pos cs
      = (List.range ((pos.length - 1) / cs)).map
          (fun i => (pos.take ((i + 1) * cs)).drop (i * cs))
        ++ [pos.drop (((pos.length - 1) / cs) * cs)] := by
  unfold ingestPieces npSplit pyRangeNat
  rw [pyRangeNat_count pos.length cs hcs hn]
  have hcuts : (List.range ((pos.length - 1) / cs)).map (fun k => cs + k * cs)
      = (List.range ((pos.length - 1) / cs)).map (fun i => 0 + (i + 1) * cs) := by
    apply List.map_congr_left
    intro i _
    ring
  rw [hcuts, npSections_arith pos cs ((pos.length - 1) / cs) 0]
  congr 1
  · apply List.map_congr_left
    intro i _
    have h1 : 0 + (i + 1) * cs = (i + 1) * cs := by ring
    have h2 : 0 + i * cs = i * cs := by ring
    rw [h1, h2]
  · rw [Nat.zero_add]

theorem ingestPieces_length (pos : List Int) (cs : Nat) (hcs : 0 < cs)
    (hn : 0 < pos.length) :
    (ingestPieces pos cs).length = (pos.length - 1) / cs + 1 := by
  rw [ingestPieces_eq pos cs hcs hn]
  simp

theorem ingestPieces_getD (pos : List Int) (cs : Nat) (hcs : 0 < cs)
    (hn : 0 < pos.length) (c : Nat) (hc : c < (ingestPieces pos cs).length) :
    (ingestPieces pos cs).getD c [] = (pos.drop (c * cs)).take cs := by
  rw [ingestPieces_length pos cs hcs hn] at hc
  rw [ingestPieces_eq pos cs hcs hn]
  have hK : ((pos.length - 1) / cs) * cs + (pos.length - 1) % cs = pos.length - 1 := by
    rw [Nat.mul_comm]
    exact Nat.div_add_mod _ _
  have hKlt : (pos.length - 1) % cs < cs := Nat.mod_lt _ hcs
  rcases Nat.lt_or_ge c ((pos.length - 1) / cs) with hlt | hge
  · have hel : ((List.range ((pos.length - 1) / cs)).map
          (fun i => (pos.take ((i + 1) * cs)).drop (i * cs))
        ++ [pos.drop (((pos.length - 1) / cs) * cs)]).getD c []
        = (pos.take ((c + 1) * cs)).drop (c * cs) := by
      rw [List.getD_eq_getElem?_getD, List.getElem?_append,
        if_pos (by simp [hlt] : c < ((List.range ((pos.length - 1) / cs)).map
          (fun i => (pos.take ((i + 1) * cs)).drop (i * cs))).length)]
      rw [List.getElem?_map, List.getElem?_range hlt]
      rfl
    rw [hel, List.drop_take]
    congr 1
    have h : (c + 1) * cs = c * cs + cs := by ring
    omega
  · have hcK : c = (pos.length - 1) / cs := by omega
    subst hcK
    have hel : ((List.range ((pos.length - 1) / cs)).map
          (fun i => (pos.take ((i + 1) * cs)).drop (i * cs))
        ++ [pos.drop (((pos.length - 1) / cs) * cs)]).getD ((pos.length - 1) / cs) []
        = pos.drop (((pos.length - 1) / cs) * cs) := by
      rw [List.getD_eq_getElem?_getD, List.getElem?_append_right (by simp)]
      simp
    rw [hel]
    refine (List.take_of_length_le ?_).symm
    rw [List.length_drop]
    omega

theorem chunksTable_length (pos : List Int) (cs : Nat) :
    (chunksTableOf pos cs).length = (ingestPieces pos cs).length := by
  simp [chunksTableOf]

theorem pyTableRow_first (pos : List Int) (cs : Nat) (hcs : 0 < cs)
    (hn : 0 < pos.length) (c : Nat) (hc : c < (ingestPieces pos cs).length) :
    (pyTableRow (chunksTableOf pos cs) (c : Int)).2.1 = pos.getD (c * cs) 0 := by
  unfold pyTableRow
  rw [if_neg (by omega : ¬ ((c : Int) < 0)), Int.toNat_natCast]
  unfold chunksTableOf
  rw [List.getD_eq_getElem?_getD, List.getElem?_map, List.getElem?_enum,
    List.getElem?_eq_getElem hc]
  have hpc : (ingestPieces pos cs)[c] = (pos.drop (c * cs)).take cs := by
    rw [← List.getD_eq_getElem _ [] hc]
    exact ingestPieces_getD pos cs hcs hn c hc
  simp only [Option.map_some, Option.getD_some, hpc]
  show ((pos.drop (c * cs)).take cs).headD 0 = pos.getD (c * cs) 0
  rw [List.headD_eq_head?, List.head?_take, if_neg (by omega : ¬ cs = 0)]
  rw [List.head?_drop, List.getD_eq_getElem?_getD]

theorem walkCount_eq (pos : List Int) (b : Int)
    (hmono : ∀ j, j < pos.length → ∀ i, i ≤ j → pos.getD i 0 ≤ pos.getD j 0) :
    ∀ v, v < pos.length → (∀ i, i ≤ v → pos.getD i 0 ≤ b) →
      walkCount pos b v
        = ((List.range' 1 v).filter (fun i => pos.getD i 0 = b)).length := by
  intro v
  induction v with
  | zero => intro _ _; rfl
  | succ v ih =>
    intro hv hub
    have hrange : List.range' 1 (v + 1) = List.range' 1 v ++ [1 + v] := by
      simpa using @List.range'_concat 1 1 v
    show (if pos.getD (v + 1) 0 = b then walkCount pos b v + 1 else 0)
      = ((List.range' 1 (v + 1)).filter (fun i => pos.getD i 0 = b)).length
    rw [hrange, List.filter_append]
    by_cases hm : pos.getD (v + 1) 0 = b
    · rw [if_pos hm, ih (by omega) (fun i hi => hub i (by omega))]
      have hm' : pos[v + 1]?.getD 0 = b := by
        rw [← List.getD_eq_getElem?_getD]; exact hm
      have hone : (List.filter (fun i => decide (pos.getD i 0 = b)) [1 + v])
          = [1 + v] := by
        simp [show 1 + v = v + 1 by omega, hm']
      rw [hone]
      simp
    · rw [if_neg hm]
      have h1 : List.filter (fun i => decide (pos.getD i 0 = b))
          (List.range' 1 v) = [] := by
        rw [List.filter_eq_nil_iff]
        intro a ha
        have hab := List.mem_range'_1.mp ha
        simp only [decide_eq_true_eq]
        intro hcontra
        have hle : pos.getD a 0 ≤ pos.getD (v + 1) 0 :=
          hmono (v + 1) hv a (by omega)
        have hlt : pos.getD (v + 1) 0 ≤ b := hub (v + 1) (le_refl _)
        have : pos.getD (v + 1) 0 = b := le_antisymm hlt (hcontra ▸ hle)
        exact hm this
      have hm' : ¬ pos[v + 1]?.getD 0 = b := by
        rw [← List.getD_eq_getElem?_getD]; exact hm
      have h2 : List.filter (fun i => decide (pos.getD i 0 = b)) [1 + v] = [] := by
        simp [show 1 + v = v + 1 by omega, hm']
      rw [h1, h2]
      rfl

/-- C6 counterexample: with positions `[200, 200, 200]` and `chunk_size = 2`,
chunk 1 shares its boundary position with chunk 0, so the claim counts all
prior-chunk variants at that position: both variants 0 and 1, giving 2. The
code's backward walk in `_std_out_to_sparse` uses
`range(chunk * chunk_size - 1, 0, -1)`, which never examines variant 0, so it
computes an offset of only 1. -/
theorem c6_counterexample :
    (pyTableRow (chunksTableOf [200, 200, 200] 2) 1).2.1
      = (pyTableRow (chunksTableOf [200, 200, 200] 2) 0).2.2 ∧
    computeOffset [200, 200, 200] 2 1 = 1 ∧
    ((List.range (1 * 2)).filter
      (fun v => List.getD [(200 : Int), 200, 200] v 0 = 200)).length = 2 := by
  decide

/-- C6 (amended): for a variant table with non-decreasing positions, when
chunk `c > 0` shares its first position with the previous chunk's last
position, the trim offset computed by `_std_out_to_sparse` equals the number
of variants with index in `1 .. c*chunk_size - 1` (variant 0 is never
examined by the backward walk) whose position equals the boundary position;
the parsed text stream is then cut to rows `offset .. offset + chunk_size - 1`,
dropping exactly `offset` leading rows; and for chunk 0 the offset is 0. -/
theorem c6_trim_offset (pos : List Int) (cs : Nat) (hcs : 0 < cs) (c : Nat)
    (hc0 : 0 < c) (hcT : c < (chunksTableOf pos cs).length)
    (hmono : ∀ j, j < pos.length → ∀ i, i ≤ j → pos.getD i 0 ≤ pos.getD j 0)
    (hbnd : (pyTableRow (chunksTableOf pos cs) (c : Int)).2.1
      = (pyTableRow (chunksTableOf pos cs) ((c : Int) - 1)).2.2) :
    computeOffset pos cs c
        = ((List.range' 1 (c * cs - 1)).filter
            (fun v => pos.getD v 0 = pos.getD (c * cs) 0)).length ∧
      (∀ parsed : List (List Bool),
        trimParsed parsed (computeOffset pos cs c) cs
          = (parsed.drop (computeOffset pos cs c)).take cs) ∧
      computeOffset pos cs 0 = 0 := by
  have hn : 0 < pos.length := by
    by_contra h
    have hl0 : pos.length = 0 := by omega
    have hpe : pos = [] := List.length_eq_zero.mp hl0
    subst hpe
    rw [chunksTable_length] at hcT
    have h1 : (cs - 1) / cs = 0 := Nat.div_eq_of_lt (by omega)
    simp [ingestPieces, npSplit, pyRangeNat, npSections, h1] at hcT
    omega
  have hcI : c < (ingestPieces pos cs).length := by
    rw [chunksTable_length] at hcT
    exact hcT
  have hcn : c * cs < pos.length := by
    rw [ingestPieces_length pos cs hcs hn] at hcI
    have hmul : c * cs ≤ ((pos.length - 1) / cs) * cs :=
      Nat.mul_le_mul_right cs (by omega)
    have hdm : ((pos.length - 1) / cs) * cs ≤ pos.length - 1 :=
      Nat.div_mul_le_self _ _
    omega
  have hfirst := pyTableRow_first pos cs hcs hn c hcI
  refine ⟨?_, ?_, ?_⟩
  · show (if (pyTableRow (chunksTableOf pos cs) (c : Int)).2.1
        = (pyTableRow (chunksTableOf pos cs) ((c : Int) - 1)).2.2 then
        walkCount pos (pyTableRow (chunksTableOf pos cs) (c : Int)).2.1
          (c * cs - 1)
      else 0) = _
    rw [if_pos hbnd, hfirst]
    exact walkCount_eq pos (pos.getD (c * cs) 0) hmono (c * cs - 1)
      (by omega) (fun i hi => hmono (c * cs) hcn i (by omega))
  · intro parsed
    show (parsed.take (computeOffset pos cs c + cs)).drop (computeOffset pos cs c)
      = (parsed.drop (computeOffset pos cs c)).take cs
    rw [List.drop_take]
    congr 1
    omega
  · show (if (pyTableRow (chunksTableOf pos cs) ((0 : Nat) : Int)).2.1
        = (pyTableRow (chunksTableOf pos cs) (((0 : Nat) : Int) - 1)).2.2 then
        walkCount pos (pyTableRow (chunksTableOf pos cs) ((0 : Nat) : Int)).2.1
          (0 * cs - 1)
      else 0) = 0
    have hz : 0 * cs - 1 = 0 := by omega
    rw [hz]
    split
    · rfl
    · rfl

/-- C6 witness: positions `[100, 200, 200, 300]` with `chunk_size = 2`; chunk 1
starts at position 200, which is also chunk 0's last position, and exactly one
variant in `1 .. 1` has that position, so the offset is 1. -/
theorem c6_trim_offset_witness :
    computeOffset [100, 200, 200, 300] 2 1
        = ((List.range' 1 (1 * 2 - 1)).filter
            (fun v => List.getD [(100 : Int), 200, 200, 300] v 0
              = List.getD [(100 : Int), 200, 200, 300] (1 * 2) 0)).length ∧
      trimParsed [[true], [false], [true]] (computeOffset [100, 200, 200, 300] 2 1) 2
        = (([[true], [false], [true]] : List (List Bool)).drop
            (computeOffset [100, 200, 200, 300] 2 1)).take 2 ∧
      computeOffset [100, 200, 200, 300] 2 0 = 0 :=
  ⟨(c6_trim_offset [100, 200, 200, 300] 2 (by decide) 1 (by decide) (by decide)
      (by decide) (by decide)).1,
   (c6_trim_offset [100, 200, 200, 300] 2 (by decide) 1 (by decide) (by decide)
      (by decide) (by decide)).2.1 [[true], [false], [true]],
   (c6_trim_offset [100, 200, 200, 300] 2 (by decide) 1 (by decide) (by decide)
      (by decide) (by decide)).2.2⟩

theorem chunkStart_lt (pos : List Int) (cs : Nat) (hcs : 0 < cs)
    (hn : 0 < pos.length) (c : Nat) (hc : c < (ingestPieces pos cs).length) :
    c * cs < pos.length := by
  rw [ingestPieces_length pos cs hcs hn] at hc
  have hmul : c * cs ≤ ((pos.length - 1) / cs) * cs :=
    Nat.mul_le_mul_right cs (by omega)
  have hdm : ((pos.length - 1) / cs) * cs ≤ pos.length - 1 :=
    Nat.div_mul_le_self _ _
  omega

theorem firstPos_getD (pos : List Int) (cs : Nat) (hcs : 0 < cs)
    (hn : 0 < pos.length) (c : Nat) (hc : c < (ingestPieces pos cs).length) :
    ((ingestPieces pos cs).getD c []).headD 0 = pos.getD (c * cs) 0 := by
  rw [ingestPieces_getD pos cs hcs hn c hc]
  rw [List.headD_eq_head?, List.head?_take, if_neg (by omega : ¬ cs = 0)]
  rw [List.head?_drop, List.getD_eq_getElem?_getD]

/-- C7: for a variant table with non-decreasing positions, ingestion cuts the
position list into pieces where every piece except the last has exactly
`chunk_size` entries, the last has `(n_variants - 1) mod chunk_size + 1`
entries, the chunks-table ids are `0, 1, ..., n_chunks - 1` consecutively, and
first positions are non-decreasing in chunk id. -/
theorem c7_chunk_invariants (pos : List Int) (cs : Nat) (hcs : 0 < cs)
    (hn : 0 < pos.length)
    (hmono : ∀ j, j < pos.length → ∀ i, i ≤ j → pos.getD i 0 ≤ pos.getD j 0) :
    (∀ i, i + 1 < (ingestPieces pos cs).length →
        ((ingestPieces pos cs).getD i []).length = cs) ∧
    ((ingestPieces pos cs).getLastD []).length = (pos.length - 1) % cs + 1 ∧
    (chunksTableOf pos cs).map Prod.fst
        = List.range (chunksTableOf pos cs).length ∧
    ((chunksTableOf pos cs).map (fun t => t.2.1)).Pairwise (· ≤ ·) := by
  have hK : ((pos.length - 1) / cs) * cs + (pos.length - 1) % cs
      = pos.length - 1 := by
    rw [Nat.mul_comm]; exact Nat.div_add_mod _ _
  have hKm : (pos.length - 1) % cs < cs := Nat.mod_lt _ hcs
  refine ⟨?_, ?_, ?_, ?_⟩
  · intro i hi
    rw [ingestPieces_getD pos cs hcs hn i (by omega)]
    rw [List.length_take, List.length_drop]
    rw [ingestPieces_length pos cs hcs hn] at hi
    have h1 : (i + 1) * cs ≤ ((pos.length - 1) / cs) * cs :=
      Nat.mul_le_mul_right cs (by omega)
    have h3 : (i + 1) * cs = i * cs + cs := by ring
    omega
  · rw [ingestPieces_eq pos cs hcs hn, List.getLastD_concat, List.length_drop]
    omega
  · unfold chunksTableOf
    rw [List.map_map]
    have hfst : (Prod.fst ∘ fun pr : Nat × List Int =>
        (pr.1, (pr.2.headD 0, pr.2.getLastD 0))) = Prod.fst := by
      funext pr; rfl
    rw [hfst, List.enum_map_fst, List.length_map, List.enum_length]
  · rw [List.pairwise_iff_getElem]
    intro i j hi hj hij
    have hlen : ((chunksTableOf pos cs).map (fun t : Nat × Int × Int => t.2.1)).length
        = (ingestPieces pos cs).length := by
      rw [List.length_map, chunksTable_length]
    have hi' : i < (ingestPieces pos cs).length := by rw [hlen] at hi; exact hi
    have hj' : j < (ingestPieces pos cs).length := by rw [hlen] at hj; exact hj
    have helem : ∀ (k : Nat)
        (hk2 : k < ((chunksTableOf pos cs).map (fun t : Nat × Int × Int => t.2.1)).length),
        ((chunksTableOf pos cs).map (fun t : Nat × Int × Int => t.2.1))[k]
          = pos.getD (k * cs) 0 := by
      intro k hk2
      have hk : k < (ingestPieces pos cs).length := by rw [hlen] at hk2; exact hk2
      rw [List.getElem_map]
      have hk3 : k < ((ingestPieces pos cs).enum.map
          (fun pr => (pr.1, (pr.2.headD 0, pr.2.getLastD 0)))).length := by
        rw [List.length_map, List.enum_length]; exact hk
      show ((ingestPieces pos cs).enum.map
        (fun pr => (pr.1, (pr.2.headD 0, pr.2.getLastD 0))))[k].2.1 = _
      rw [List.getElem_map, List.getElem_enum]
      show ((ingestPieces pos cs)[k]).headD 0 = pos.getD (k * cs) 0
      rw [← List.getD_eq_getElem _ [] hk]
      exact firstPos_getD pos cs hcs hn k hk
    rw [helem i hi, helem j hj]
    exact hmono (j * cs) (chunkStart_lt pos cs hcs hn j hj') (i * cs)
      (Nat.mul_le_mul_right cs (by omega))

/-- C7 witness: for positions `[100, 200, 300]` and `chunk_size = 2`, the first
piece has 2 entries, the last has `(3 - 1) mod 2 + 1 = 1` entry, chunk ids are
`[0, 1]`, and first positions are non-decreasing. -/
theorem c7_chunk_invariants_witness :
    ((ingestPieces [100, 200, 300] 2).getD 0 []).length = 2 ∧
    ((ingestPieces [100, 200, 300] 2).getLastD []).length = (3 - 1) % 2 + 1 ∧
    (chunksTableOf [100, 200, 300] 2).map Prod.fst
        = List.range (chunksTableOf [100, 200, 300] 2).length ∧
    ((chunksTableOf [100, 200, 300] 2).map
        (fun t : Nat × Int × Int => t.2.1)).Pairwise (· ≤ ·) :=
  ⟨(c7_chunk_invariants [100, 200, 300] 2 (by decide) (by decide) (by decide)).1
      0 (by decide),
   (c7_chunk_invariants [100, 200, 300] 2 (by decide) (by decide) (by decide)).2.1,
   (c7_chunk_invariants [100, 200, 300] 2 (by decide) (by decide) (by decide)).2.2.1,
   (c7_chunk_invariants [100, 200, 300] 2 (by decide) (by decide) (by decide)).2.2.2⟩

structure PanelInstance where
  metaNVariants : Option Nat
  metaChunkSize : Nat
  metaSourceFile : List Char
  ids : List (List Char)
  originalIds : List (List Char)
  sampleIds : List (List Char)
deriving DecidableEq

def n_variants (self : PanelInstance) : Nat := self.metaNVariants.getD 0

def from_bcf (self : PanelInstance) (bcf_path : List Char)
    (chunk_size threads : Nat) (replace_file : Bool)
    (ingest : PanelInstance → List Char → Nat → Nat → PanelInstance × Bool) :
    PanelInstance × Bool :=
  if 0 < n_variants self ∧ replace_file = false then (self, false)
  else ingest self bcf_path chunk_size threads

def from_xsi (self : PanelInstance) (xsi_path : List Char)
    (chunk_size threads : Nat) (replace_file : Bool)
    (ingest : PanelInstance → List Char → Nat → Nat → PanelInstance × Bool) :
    PanelInstance × Bool :=
  if 0 < n_variants self ∧ replace_file = false then (self, false)
  else ingest self xsi_path chunk_size threads

def loadedInst : PanelInstance :=
  { metaNVariants := some 3
    metaChunkSize := 2
    metaSourceFile := []
    ids := [['a'], ['b'], ['c']]
    originalIds := [['a'], ['b'], ['c']]
    sampleIds := [['s']] }

structure Variant where
  chr : List Char
  pos : Int
  ref : List Char
  alt : List Char
deriving DecidableEq

structure SrpArchive where
  idsEntry : Option (List Char)
  originalIdsEntry : Option (List Char)
  sampleIdsEntry : Option (List Char)
  variantsEntry : List Variant
  metaNVariants : Option Nat
  metaNHaps : Option Nat
deriving DecidableEq

def splitNlAux : List Char → List Char → List (List Char)
  | [], acc => [acc.reverse]
  | c :: rest, acc =>
    if c = '\x0a' then acc.reverse :: splitNlAux rest []
    else splitNlAux rest (c :: acc)

def splitNl (s : List Char) : List (List Char) :=
  splitNlAux s []

def synthId (v : Variant) : List Char :=
  v.chr ++ '-' :: (toString v.pos).data ++ '-' :: v.ref ++ '-' :: v.alt

def load_ids (a : SrpArchive) : List (List Char) :=
  match a.idsEntry with
  | some s => splitNl s
  | none => a.variantsEntry.map synthId

def load_original_ids (a : SrpArchive) : List (List Char) :=
  match a.originalIdsEntry with
  | some s => splitNl s
  | none => load_ids a

def load_sample_ids (a : SrpArchive) : List (List Char) :=
  match a.sampleIdsEntry with
  | some s => splitNl s
  | none => []

def n_samples (a : SrpArchive) : Nat :=
  (load_sample_ids a).length

def nVariantsArc (a : SrpArchive) : Nat := a.metaNVariants.getD 0

def nHapsArc (a : SrpArchive) : Nat := a.metaNHaps.getD 0

def emptyArc (a : SrpArchive) : Bool :=
  nVariantsArc a == 0 || nHapsArc a == 0

def createdSrp : SrpArchive :=
  { idsEntry := none
    originalIdsEntry := none
    sampleIdsEntry := some []
    variantsEntry := []
    metaNVariants := none
    metaNHaps := none }

def sampleArchive : SrpArchive :=
  { idsEntry := none
    originalIdsEntry := none
    sampleIdsEntry := none
    variantsEntry := [⟨['1'], 100, ['A'], ['G']⟩]
    metaNVariants := some 1
    metaNHaps := some 4 }

/-- C8: when the panel already holds variants (n_variants > 0) and
`replace_file` is false, both conversion entry points return early with the
instance unchanged and without rewriting the archive, whatever the path,
chunk size, thread count, or ingestion behavior. -/
theorem c8_replace_false_noop (self : PanelInstance) (hn : 0 < n_variants self)
    (bcf_path xsi_path : List Char) (chunk_size threads : Nat)
    (ingestB ingestX : PanelInstance → List Char → Nat → Nat → PanelInstance × Bool) :
    from_bcf self bcf_path chunk_size threads false ingestB = (self, false) ∧
    from_xsi self xsi_path chunk_size threads false ingestX = (self, false) := by
  constructor
  · unfold from_bcf
    rw [if_pos ⟨hn, rfl⟩]
  · unfold from_xsi
    rw [if_pos ⟨hn, rfl⟩]

/-- C8 witness: a loaded instance with 3 variants is returned unchanged by
`from_bcf` and `from_xsi` with `replace_file = false`, even when the
ingestion continuation would mutate it. -/
theorem c8_replace_false_noop_witness :
    from_bcf loadedInst ['p'] 10000 1 false (fun i _ _ _ => (i, true))
      = (loadedInst, false) ∧
    from_xsi loadedInst ['q'] 10000 1 false (fun i _ _ _ => (i, true))
      = (loadedInst, false) :=
  c8_replace_false_noop loadedInst (by decide) ['p'] ['q'] 10000 1
    (fun i _ _ _ => (i, true)) (fun i _ _ _ => (i, true))

/-- C9: opening an archive whose optional entries are absent raises no error:
IDs are synthesized by joining each variant record's fields with a dash,
original IDs fall back to the synthesized IDs, and sample ids are reported
as the empty list. -/
theorem c9_missing_entries_fallbacks (a : SrpArchive)
    (hids : a.idsEntry = none) (horig : a.originalIdsEntry = none)
    (hsamp : a.sampleIdsEntry = none) :
    load_ids a = a.variantsEntry.map synthId ∧
    load_original_ids a = load_ids a ∧
    load_sample_ids a = [] := by
  refine ⟨?_, ?_, ?_⟩
  · unfold load_ids
    rw [hids]
  · unfold load_original_ids
    rw [horig]
  · unfold load_sample_ids
    rw [hsamp]

/-- C9 witness: an archive with one variant record `1:100 A>G` and no
optional entries loads the synthesized ID `1-100-A-G`, original IDs equal to
the IDs, and an empty sample id list. -/
theorem c9_missing_entries_fallbacks_witness :
    load_ids sampleArchive = sampleArchive.variantsEntry.map synthId ∧
    load_original_ids sampleArchive = load_ids sampleArchive ∧
    load_sample_ids sampleArchive = [] :=
  c9_missing_entries_fallbacks sampleArchive rfl rfl rfl

/-- C10: an auto-created empty archive stores `sample_ids` as the empty
string, which decodes and splits on newline into a list holding one empty
string, so `n_samples` reports 1 while the panel has no variants and is
empty. -/
theorem c10_fresh_archive_sample_count :
    load_sample_ids createdSrp = [[]] ∧
    n_samples createdSrp = 1 ∧
    nVariantsArc createdSrp = 0 ∧
    emptyArc createdSrp = true := by
  decide
